import Mathlib

/-!
# Verification of the mdCSV pipe-table core

A shallow embedding of the Markdown pipe-table core of `mdCSV.py`:
the table model (`MarkdownTable`, `to_markdown`), the pipe-table parser
(`parse_pipe_table`, `find_tables`), and the delimited-text helpers
(`escape_csv`, `parse_delimited`, the paste sniffing and header-skip logic).

Python strings are modelled as `List Char` (`Str`). Python library
primitives used by the source (`str.strip`, `str.splitlines`, `str.split`,
`str.ljust`, `csv.reader`) are modelled by executable Lean functions with
the same semantics on the inputs that occur (ASCII whitespace set for
`strip`; the `csv.reader` state machine of the default dialect, restricted
to input lines that contain no line-break characters, which is the only way
the source ever invokes it, namely on `text.splitlines()`).
-/

namespace MdCSV

/-- Python strings, modelled as lists of characters. -/
abbrev Str := List Char

/-- The whitespace characters removed by Python `str.strip()`
(ASCII subset: space, tab, newline, carriage return, vertical tab, form feed). -/
def pyIsSpace (c : Char) : Bool :=
  c = ' ' || c = '\t' || c = '\n' || c = '\r' || c = '\x0b' || c = '\x0c'

/-- Python `str.strip()`: remove leading and trailing whitespace. -/
def pyStrip (s : Str) : Str :=
  ((s.dropWhile pyIsSpace).reverse.dropWhile pyIsSpace).reverse

/-- The line-boundary characters recognised by Python `str.splitlines()`. -/
def isLineBreak (c : Char) : Bool :=
  c = '\n' || c = '\r' || c = '\x0b' || c = '\x0c' || c = '\x1c' || c = '\x1d' ||
  c = '\x1e' || c = '\x85' || c = '\u2028' || c = '\u2029'

/-- One step of `str.splitlines()`, prepending character `c` to the split
`res` of the remaining text `rest`: a `\r` directly before a `\n` is part of
that boundary and changes nothing; any other boundary character opens a fresh
empty line; an ordinary character extends the first line (creating it when the
remaining text contributed none). -/
def pySplitlinesStep (c : Char) (rest : Str) (res : List Str) : List Str :=
  if c = '\r' ∧ rest.head? = some '\n' then res
  else if isLineBreak c then [] :: res
  else
    match res with
    | [] => [[c]]
    | l :: ls => (c :: l) :: ls

/-- Python `str.splitlines()`: split at line boundaries (`\r\n` counts as one
boundary); the text after the last boundary forms a final line only if it is
non-empty. -/
def pySplitlines (s : Str) : List Str :=
  (s.foldr (fun c p => (c :: p.1, pySplitlinesStep c p.1 p.2)) ([], [])).2

/-- Python `s.split(d)` for a one-character separator `d`: every occurrence
splits, empty pieces are kept, and the result is never empty. -/
def splitOnChar (d : Char) : Str → List Str
  | [] => [[]]
  | c :: rest =>
    if c = d then [] :: splitOnChar d rest
    else
      match splitOnChar d rest with
      | [] => [[c]]
      | p :: ps => (c :: p) :: ps

/-- Python `s.ljust(w)`: pad on the right with spaces to width `w`. -/
def ljust (s : Str) (w : Nat) : Str := s ++ List.replicate (w - s.length) ' '

/-- Python `s.rstrip("\n")`: remove trailing newline characters. -/
def rstripNL (s : Str) : Str := (s.reverse.dropWhile (fun c => c = '\n')).reverse

/-- Column alignment tags (the strings "left" / "right" / "center" of the source). -/
inductive Align where
  | left
  | right
  | center
deriving DecidableEq, Repr

/-- The in-memory table value of class `MarkdownTable` (mdCSV.py lines 44-48). -/
structure MarkdownTable where
  header : List Str
  aligns : List Align
  rows : List (List Str)
deriving DecidableEq, Repr

namespace MarkdownTable

/-- `r[i] if i < len(r) else ""`: cell `i` of a row, empty when missing. -/
def cellAt (r : List Str) (i : Nat) : Str := r.getD i []

/-- The rendered width of column `i`: the running maximum, over the header cell
and every row's cell `i`, of the cell length (mdCSV.py lines 52-56). -/
def width (t : MarkdownTable) (i : Nat) : Nat :=
  t.rows.foldl (fun w r => max w (cellAt r i).length) (cellAt t.header i).length

/-- `self.aligns[i] if i < len(self.aligns) else "left"` (mdCSV.py line 66). -/
def alignAt (t : MarkdownTable) (i : Nat) : Align := t.aligns.getD i .left

/-- One padded cell of a rendered row: `" " + text.ljust(widths[i]) + " "`
(mdCSV.py line 62). -/
def fmt_cell (t : MarkdownTable) (cells : List Str) (i : Nat) : Str :=
  ' ' :: (ljust (cellAt cells i) (t.width i) ++ [' '])

/-- `fmt_row` of mdCSV.py lines 58-63: `"|" + "|".join(out) + "|"`. -/
def fmt_row (t : MarkdownTable) (cells : List Str) : Str :=
  '|' :: (List.intercalate ['|'] ((List.range t.header.length).map (t.fmt_cell cells)) ++ ['|'])

/-- `fmt_align` of mdCSV.py lines 65-73: the separator cell for column `i`. -/
def fmt_align (t : MarkdownTable) (i : Nat) : Str :=
  match t.alignAt i with
  | .left => ':' :: List.replicate (t.width i + 1) '-'
  | .right => List.replicate (t.width i + 1) '-' ++ [':']
  | .center => ':' :: (List.replicate (t.width i) '-' ++ [':'])

/-- The rendered separator row (mdCSV.py line 76). -/
def sep_row (t : MarkdownTable) : Str :=
  '|' :: (List.intercalate ['|'] ((List.range t.header.length).map t.fmt_align) ++ ['|'])

/-- `MarkdownTable.to_markdown` (mdCSV.py lines 50-79): header row, separator
row, then each data row, newline-joined, no trailing newline. -/
def to_markdown (t : MarkdownTable) : Str :=
  List.intercalate ['\n'] ([t.fmt_row t.header, t.sep_row] ++ t.rows.map t.fmt_row)

end MarkdownTable

/-- The run-collection loop of `parse_pipe_table` (mdCSV.py lines 85-93):
collect consecutive lines (each `rstrip("\n")`-ed) that contain a `|` and are
not blank after stripping; stop at the first line that fails. -/
def collectRun : List Str → List Str
  | [] => []
  | l :: ls =>
    let ln := rstripNL l
    if ln.contains '|' && !(pyStrip ln).isEmpty then ln :: collectRun ls else []

/-- `split_row` of mdCSV.py lines 97-104: strip the line, drop one leading and
one trailing `|` if present, split on `|`, strip each piece. -/
def split_row (s : Str) : List Str :=
  let s1 := pyStrip s
  let s2 := if s1.head? = some '|' then s1.tail else s1
  let s3 := if s2.getLast? = some '|' then s2.dropLast else s2
  (splitOnChar '|' s3).map pyStrip

/-- The language of the regular expression `:?-{2,}:?`: an optional leading
colon, two or more dashes, an optional trailing colon. -/
def sepCellOk (s : Str) : Bool :=
  let t := if s.head? = some ':' then s.tail else s
  let u := if t.getLast? = some ':' then t.dropLast else t
  decide (2 ≤ u.length) && u.all (fun c => c = '-')

/-- `re.match(r"^:?-{2,}:?$", s)` (mdCSV.py line 110): Python's `$` also
matches just before a single newline at the end of the string. -/
def reMatchSep (s : Str) : Bool :=
  sepCellOk s || (s.getLast? = some '\n' && sepCellOk s.dropLast)

/-- `align_of` of mdCSV.py lines 113-121: strip the cell; leading and trailing
colon give center, trailing colon alone gives right, anything else left. -/
def align_of (seg : Str) : Align :=
  let s := pyStrip seg
  if s.head? = some ':' ∧ s.getLast? = some ':' then .center
  else if s.getLast? = some ':' then .right
  else .left

/-- `parse_pipe_table(lines, start_index)` (mdCSV.py lines 83-126). Returns
`(none, start_index)` when fewer than two lines are collected or a separator
cell fails the pattern, else the parsed table and the index one past the last
collected line. -/
def parse_pipe_table (lines : List Str) (start_index : Nat) :
    Option MarkdownTable × Nat :=
  match collectRun (lines.drop start_index) with
  | a :: b :: rest =>
    let header := split_row a
    let separator := split_row b
    if separator.all reMatchSep then
      (some ⟨header, separator.map align_of, rest.map split_row⟩,
        start_index + (2 + rest.length))
    else (none, start_index)
  | _ => (none, start_index)

/-- The scanning loop of `find_tables` (mdCSV.py lines 132-139): starting at
line `i`, try a parse; on success record `(i, j, t)` and resume at `j`, on
failure advance one line. -/
def find_tables_go (lines : List Str) (i : Nat) : List (Nat × Nat × MarkdownTable) :=
  if hlt : i < lines.length then
    match hp : parse_pipe_table lines i with
    | (some t, j) => (i, j, t) :: find_tables_go lines j
    | (none, _) => find_tables_go lines (i + 1)
  else []
termination_by lines.length - i
decreasing_by
  · have hj : i + 2 ≤ j := by
      unfold parse_pipe_table at hp
      split at hp
      · simp only [] at hp
        split at hp
        · simp only [Prod.mk.injEq] at hp
          omega
        · simp at hp
      · simp at hp
    omega
  · omega

/-- `find_tables(md_text)` (mdCSV.py lines 129-140). -/
def find_tables (md_text : Str) : List (Nat × Nat × MarkdownTable) :=
  find_tables_go (pySplitlines md_text) 0

/-- `_escape_csv` (mdCSV.py lines 529-532): quote the cell, doubling internal
double quotes, exactly when it contains a comma, double quote, `\n` or `\r`. -/
def escape_csv (s : Str) : Str :=
  if s.any (fun c => c = ',' || c = '"' || c = '\n' || c = '\r') then
    '"' :: (((s.map (fun c => if c = '"' then ['"', '"'] else [c])).flatten) ++ ['"'])
  else s

/-- The parser states of the `csv.reader` state machine (CPython `_csv.c`)
that are reachable when every input line is free of line-break characters
(which holds for the output of `str.splitlines()`, the only input the source
feeds it): `START_RECORD`, `START_FIELD`, `IN_FIELD`, `IN_QUOTED_FIELD`,
`QUOTE_IN_QUOTED_FIELD`. -/
inductive CsvState where
  | startRecord
  | startField
  | inField
  | inQuoted
  | quoteInQuoted
deriving DecidableEq, Repr

/-- The running accumulator of the `csv.reader` model: parser state, the
current field, the fields of the current record, and the finished rows. -/
structure CsvAcc where
  state : CsvState
  field : Str
  fields : List Str
  rows : List (List Str)
deriving DecidableEq, Repr

/-- One character step of `csv.reader` with delimiter `d`, default dialect
(quote character `"`, `doublequote=True`, no escape character, non-strict),
for a character that is not a line break. -/
def csvStep (d : Char) (a : CsvAcc) (c : Char) : CsvAcc :=
  match a.state with
  | .startRecord | .startField =>
    if c = '"' then { a with state := .inQuoted }
    else if c = d then { a with state := .startField, fields := a.fields ++ [a.field], field := [] }
    else { a with state := .inField, field := a.field ++ [c] }
  | .inField =>
    if c = d then { a with state := .startField, fields := a.fields ++ [a.field], field := [] }
    else { a with field := a.field ++ [c] }
  | .inQuoted =>
    if c = '"' then { a with state := .quoteInQuoted }
    else { a with field := a.field ++ [c] }
  | .quoteInQuoted =>
    if c = '"' then { a with state := .inQuoted, field := a.field ++ ['"'] }
    else if c = d then { a with state := .startField, fields := a.fields ++ [a.field], field := [] }
    else { a with state := .inField, field := a.field ++ [c] }

/-- The end-of-line step of `csv.reader`: outside a quoted field the pending
field is saved and the record is emitted (an empty line at record start emits
an empty record); inside a quoted field the end of line is ignored and the
field continues on the next line (the line's break characters were already
consumed by `splitlines`, so nothing is added to the field). -/
def csvEOL (a : CsvAcc) : CsvAcc :=
  match a.state with
  | .startRecord =>
    { state := .startRecord, field := [], fields := [], rows := a.rows ++ [a.fields] }
  | .startField | .inField | .quoteInQuoted =>
    { state := .startRecord, field := [], fields := [],
      rows := a.rows ++ [a.fields ++ [a.field]] }
  | .inQuoted => a

/-- End of input: `csv.reader` emits a final record when a field is pending or
the input ended inside a quoted field. -/
def csvFinish (a : CsvAcc) : List (List Str) :=
  if !a.field.isEmpty || a.state = .inQuoted then a.rows ++ [a.fields ++ [a.field]]
  else a.rows

/-- `csv.reader(lines, delimiter=d)` on lines free of line-break characters. -/
def csv_reader (d : Char) (lines : List Str) : List (List Str) :=
  csvFinish (lines.foldl (fun a l => csvEOL (l.foldl (csvStep d) a)) ⟨.startRecord, [], [], []⟩)

/-- `_parse_delimited(text, delimiter)` (mdCSV.py lines 535-540):
`csv.reader(text.splitlines(), delimiter=delimiter)`, rows collected in order. -/
def parse_delimited (text : Str) (d : Char) : List (List Str) :=
  csv_reader d (pySplitlines text)

/-- Python `str.lower()` (ASCII letters; the only letters that occur here). -/
def pyLower (s : Str) : Str := s.map Char.toLower

/-- `_header_matches(row, headers)` (mdCSV.py lines 543-546): compare the two
cell lists after stripping and lowercasing each cell. -/
def header_matches (row headers : List Str) : Bool :=
  decide ((row.map fun c => pyLower (pyStrip c)) = (headers.map fun c => pyLower (pyStrip c)))

/-- The delimiter sniffing of `App.paste_rows` (mdCSV.py lines 460-462):
parse comma-delimited; if at most one row results, re-parse tab-delimited. -/
def sniff_rows (text : Str) : List (List Str) :=
  let rows := parse_delimited text ','
  if rows.length ≤ 1 then parse_delimited text '\t' else rows

/-- The header-skip decision of `App.paste_rows` (mdCSV.py line 467):
`1 if rows and _header_matches(rows[0], headers) else 0`. -/
def paste_start_idx (rows : List (List Str)) (headers : List Str) : Nat :=
  if rows ≠ [] ∧ header_matches (rows.headD []) headers then 1 else 0

/-- The rows actually inserted by `App.paste_rows` (mdCSV.py lines 467-472):
the parsed rows after the header-skip decision, each padded or truncated to
the column count of the target table. -/
def paste_inserted (rows : List (List Str)) (headers : List Str) : List (List Str) :=
  (rows.drop (paste_start_idx rows headers)).map
    (fun r => (List.range headers.length).map (fun i => r.getD i []))

/-! ## Derived notions used to state the claims -/

/-- A cell string that survives the parse/render round trip unchanged: it is
fixed by `strip`, contains no `|`, and contains no line-break character. -/
def goodCell (c : Str) : Prop :=
  pyStrip c = c ∧ '|' ∉ c ∧ ∀ ch ∈ c, isLineBreak ch = false

instance : DecidablePred goodCell := fun c => by unfold goodCell; infer_instance

/-- The hypotheses under which a table round-trips: non-empty header, every
header and row cell good, and every column wide enough that its rendered
separator cell contains at least two dashes (width at least 1, and at least 2
for a centered column). -/
def goodTable (t : MarkdownTable) : Prop :=
  t.header ≠ [] ∧ (∀ c ∈ t.header, goodCell c) ∧ (∀ r ∈ t.rows, ∀ c ∈ r, goodCell c) ∧
  ∀ i < t.header.length, 1 ≤ t.width i ∧ (t.alignAt i = .center → 2 ≤ t.width i)

instance : DecidablePred goodTable := fun t => by unfold goodTable; infer_instance

/-- The canonical alignment list the parser reconstructs: one tag per header
column, missing tags read as `left`, extra tags dropped. -/
def canonAligns (t : MarkdownTable) : List Align :=
  (List.range t.header.length).map t.alignAt

/-- A row normalised to exactly `n` cells: missing cells become empty, extra
cells are dropped. -/
def canonRow (n : Nat) (r : List Str) : List Str :=
  (List.range n).map (fun i => r.getD i [])

/-- The table the parser reconstructs from `to_markdown t` (for a good table):
the same header, canonical alignments, and normalised rows. -/
def normalize (t : MarkdownTable) : MarkdownTable :=
  ⟨t.header, canonAligns t, t.rows.map (canonRow t.header.length)⟩

/-! ## Concrete values used in the claims -/

/-- The four input lines of the concrete scenario of the spec (§8). -/
def exLines : List Str :=
  ["| Col A | Col B |".data, "| :--- | ---: |".data, "| one | 1 |".data, "| two | 2 |".data]

/-- The table the concrete scenario parses to. -/
def exTable : MarkdownTable :=
  ⟨["Col A".data, "Col B".data], [.left, .right],
    [["one".data, "1".data], ["two".data, "2".data]]⟩

/-- A table whose only column renders with width 0, so that its rendered
separator cell `:-` has a single dash and cannot be re-parsed. -/
def narrowTable : MarkdownTable := ⟨[[]], [.left], []⟩

/-- A document holding two valid pipe tables separated by a blank line. -/
def twoTablesText : Str := "| a |\n| --- |\n\n| b |\n| --- |".data

/-- The first table of `twoTablesText`. -/
def tableA : MarkdownTable := ⟨[['a']], [.left], []⟩

/-- The second table of `twoTablesText`. -/
def tableB : MarkdownTable := ⟨[['b']], [.left], []⟩

/-- The header labels `["Col A", "Col B"]` of the header-skip scenario. -/
def hdrsAB : List Str := ["Col A".data, "Col B".data]

/-! ## Lemmas about the string primitives -/

theorem head?_dropWhile_false {α : Type} (p : α → Bool) (l : List α) {c : α}
    (h : (l.dropWhile p).head? = some c) : p c = false := by
  induction l with
  | nil => simp [List.dropWhile] at h
  | cons a t ih =>
    rw [List.dropWhile_cons] at h
    split at h
    · exact ih h
    · rename_i hpa
      simp only [List.head?_cons, Option.some.injEq] at h
      subst h
      simpa using hpa

theorem getLast?_of_suffix {α : Type} {l₁ l₂ : List α} (h : l₁ <:+ l₂) (hne : l₁ ≠ []) :
    l₂.getLast? = l₁.getLast? := by
  obtain ⟨u, rfl⟩ := h
  rw [List.getLast?_append]
  cases hg : l₁.getLast? with
  | none => exact absurd (by simpa using hg) hne
  | some a => rfl

theorem pyStrip_eq_self {l : Str}
    (h1 : ∀ c, l.head? = some c → pyIsSpace c = false)
    (h2 : ∀ c, l.getLast? = some c → pyIsSpace c = false) :
    pyStrip l = l := by
  unfold pyStrip
  have d1 : l.dropWhile pyIsSpace = l := by
    cases l with
    | nil => rfl
    | cons a t => rw [List.dropWhile_cons, if_neg (by simp [h1 a rfl])]
  rw [d1]
  have d2 : l.reverse.dropWhile pyIsSpace = l.reverse := by
    cases hr : l.reverse with
    | nil => rfl
    | cons a t =>
      have ha : l.getLast? = some a := by rw [← List.head?_reverse, hr]; rfl
      rw [List.dropWhile_cons, if_neg (by simp [h2 a ha])]
  rw [d2, List.reverse_reverse]

theorem pyStrip_getLast?_false {l : Str} {c : Char} (h : (pyStrip l).getLast? = some c) :
    pyIsSpace c = false := by
  unfold pyStrip at h
  rw [List.getLast?_reverse] at h
  exact head?_dropWhile_false _ _ h

theorem pyStrip_head?_false {l : Str} {c : Char} (h : (pyStrip l).head? = some c) :
    pyIsSpace c = false := by
  unfold pyStrip at h
  rw [List.head?_reverse] at h
  have hne : (l.dropWhile pyIsSpace).reverse.dropWhile pyIsSpace ≠ [] := by
    intro h0; rw [h0] at h; simp at h
  rw [← getLast?_of_suffix (List.dropWhile_suffix pyIsSpace) hne,
    List.getLast?_reverse] at h
  exact head?_dropWhile_false _ _ h

theorem pyStrip_idem (l : Str) : pyStrip (pyStrip l) = pyStrip l :=
  pyStrip_eq_self (fun _ h => pyStrip_head?_false h) (fun _ h => pyStrip_getLast?_false h)

theorem pyStrip_cons_space (x : Str) : pyStrip (' ' :: x) = pyStrip x := by
  unfold pyStrip
  rw [List.dropWhile_cons, if_pos (by decide)]

theorem pyStrip_concat_space (x : Str) : pyStrip (x ++ [' ']) = pyStrip x := by
  unfold pyStrip
  rw [List.dropWhile_append]
  split
  · rename_i he
    rw [List.isEmpty_iff] at he
    rw [he]
    simp [List.dropWhile]
  · rw [List.reverse_append]
    simp only [List.reverse_cons, List.reverse_nil, List.nil_append, List.singleton_append]
    rw [List.dropWhile_cons, if_pos (by decide)]

theorem pyStrip_append_replicate (x : Str) (k : Nat) :
    pyStrip (x ++ List.replicate k ' ') = pyStrip x := by
  induction k with
  | zero => simp
  | succ n ih => rw [List.replicate_succ', ← List.append_assoc, pyStrip_concat_space, ih]

theorem pyStrip_pad {c : Str} (h : pyStrip c = c) (k : Nat) :
    pyStrip (' ' :: ((c ++ List.replicate k ' ') ++ [' '])) = c := by
  rw [pyStrip_cons_space, pyStrip_concat_space, pyStrip_append_replicate, h]

theorem pyStrip_subset (l : Str) : pyStrip l ⊆ l := by
  intro c hc
  unfold pyStrip at hc
  rw [List.mem_reverse] at hc
  have h1 := (List.dropWhile_suffix (l := (l.dropWhile pyIsSpace).reverse) pyIsSpace).mem hc
  rw [List.mem_reverse] at h1
  exact (List.dropWhile_suffix (l := l) pyIsSpace).mem h1

theorem splitOnChar_of_not_mem {d : Char} {p : Str} (h : d ∉ p) :
    splitOnChar d p = [p] := by
  induction p with
  | nil => rfl
  | cons c rest ih =>
    have hcd : ¬(c = d) := fun hc => h (hc ▸ List.mem_cons_self _ _)
    rw [splitOnChar, if_neg hcd, ih (fun hm => h (List.mem_cons_of_mem _ hm))]

theorem splitOnChar_append {d : Char} {a : Str} (r : Str) (h : d ∉ a) :
    splitOnChar d (a ++ d :: r) = a :: splitOnChar d r := by
  induction a with
  | nil => rw [List.nil_append, splitOnChar, if_pos rfl]
  | cons c a' ih =>
    have hcd : ¬(c = d) := fun hc => h (hc ▸ List.mem_cons_self _ _)
    rw [List.cons_append, splitOnChar, if_neg hcd,
      ih (fun hm => h (List.mem_cons_of_mem _ hm))]

theorem intercalate_single (d : Char) (a : Str) : List.intercalate [d] [a] = a := by
  simp [List.intercalate]

theorem intercalate_cons₂ (d : Char) (a b : Str) (tl : List Str) :
    List.intercalate [d] (a :: b :: tl) = a ++ d :: List.intercalate [d] (b :: tl) := by
  simp [List.intercalate, List.intersperse_cons_cons]

theorem splitOnChar_intercalate {d : Char} {ps : List Str} (hne : ps ≠ [])
    (h : ∀ p ∈ ps, d ∉ p) :
    splitOnChar d (List.intercalate [d] ps) = ps := by
  induction ps with
  | nil => exact absurd rfl hne
  | cons a tl ih =>
    cases tl with
    | nil => rw [intercalate_single]; exact splitOnChar_of_not_mem (h a (List.mem_cons_self _ _))
    | cons b tl' =>
      rw [intercalate_cons₂, splitOnChar_append _ (h a (List.mem_cons_self _ _)),
        ih (List.cons_ne_nil _ _) (fun p hp => h p (List.mem_cons_of_mem _ hp))]

theorem mem_splitOnChar_subset {d : Char} {s p : Str} (hp : p ∈ splitOnChar d s) :
    p ⊆ s := by
  induction s generalizing p with
  | nil =>
    simp only [splitOnChar, List.mem_singleton] at hp
    subst hp; exact List.nil_subset _
  | cons c rest ih =>
    rw [splitOnChar] at hp
    split at hp
    · rcases List.mem_cons.mp hp with h0 | h0
      · subst h0; exact List.nil_subset _
      · exact (ih h0).trans (List.subset_cons_self _ _)
    · rcases hq : splitOnChar d rest with _ | ⟨q, qs⟩
      · rw [hq] at hp
        simp only [List.mem_singleton] at hp
        subst hp
        intro x hx
        simp only [List.mem_singleton] at hx
        subst hx; exact List.mem_cons_self _ _
      · rw [hq] at hp
        rcases List.mem_cons.mp hp with h0 | h0
        · subst h0
          intro x hx
          rcases List.mem_cons.mp hx with h1 | h1
          · subst h1; exact List.mem_cons_self _ _
          · have : q ∈ splitOnChar d rest := by rw [hq]; exact List.mem_cons_self _ _
            exact List.mem_cons_of_mem _ (ih this h1)
        · have : p ∈ splitOnChar d rest := by rw [hq]; exact List.mem_cons_of_mem _ h0
          exact (ih this).trans (List.subset_cons_self _ _)

theorem not_mem_of_mem_splitOnChar {d : Char} {s p : Str} (hp : p ∈ splitOnChar d s) :
    d ∉ p := by
  induction s generalizing p with
  | nil =>
    simp only [splitOnChar, List.mem_singleton] at hp
    subst hp; exact List.not_mem_nil _
  | cons c rest ih =>
    rw [splitOnChar] at hp
    split at hp
    · rcases List.mem_cons.mp hp with h0 | h0
      · subst h0; exact List.not_mem_nil _
      · exact ih h0
    · rename_i hcd
      rcases hq : splitOnChar d rest with _ | ⟨q, qs⟩
      · rw [hq] at hp
        simp only [List.mem_singleton] at hp
        subst hp
        intro hx
        simp only [List.mem_singleton] at hx
        exact hcd hx.symm
      · rw [hq] at hp
        rcases List.mem_cons.mp hp with h0 | h0
        · subst h0
          intro hx
          rcases List.mem_cons.mp hx with h1 | h1
          · exact hcd h1.symm
          · have : q ∈ splitOnChar d rest := by rw [hq]; exact List.mem_cons_self _ _
            exact ih this h1
        · have : p ∈ splitOnChar d rest := by rw [hq]; exact List.mem_cons_of_mem _ h0
          exact ih this

theorem pySplitlines_fst (s : Str) :
    (s.foldr (fun c p => (c :: p.1, pySplitlinesStep c p.1 p.2)) ([], [])).1 = s := by
  induction s with
  | nil => rfl
  | cons c rest ih => simp [List.foldr_cons, ih]

theorem pySplitlines_cons (c : Char) (s : Str) :
    pySplitlines (c :: s) = pySplitlinesStep c s (pySplitlines s) := by
  unfold pySplitlines
  rw [List.foldr_cons, pySplitlines_fst]

theorem pySplitlines_cons_nb {c : Char} (hc : isLineBreak c = false) (s : Str) :
    pySplitlines (c :: s) =
      match pySplitlines s with
      | [] => [[c]]
      | l :: ls => (c :: l) :: ls := by
  have hcr : ¬(c = '\r' ∧ s.head? = some '\n') := by
    rintro ⟨h1, -⟩
    subst h1
    simp [isLineBreak] at hc
  rw [pySplitlines_cons, pySplitlinesStep.eq_def, if_neg hcr, if_neg (by simp [hc])]

theorem pySplitlines_cons_nl (s : Str) :
    pySplitlines ('\n' :: s) = [] :: pySplitlines s := by
  rw [pySplitlines_cons, pySplitlinesStep.eq_def, if_neg (by simp), if_pos (by decide)]

theorem pySplitlines_single {l : Str} (hne : l ≠ [])
    (hnb : ∀ c ∈ l, isLineBreak c = false) :
    pySplitlines l = [l] := by
  induction l with
  | nil => exact absurd rfl hne
  | cons c rest ih =>
    rw [pySplitlines_cons_nb (hnb c (List.mem_cons_self _ _))]
    cases rest with
    | nil => rfl
    | cons c2 rest' =>
      rw [ih (List.cons_ne_nil _ _) (fun x hx => hnb x (List.mem_cons_of_mem _ hx))]

theorem pySplitlines_append_nl {a : Str} (b : Str)
    (hnb : ∀ c ∈ a, isLineBreak c = false) :
    pySplitlines (a ++ '\n' :: b) = a :: pySplitlines b := by
  induction a with
  | nil => rw [List.nil_append, pySplitlines_cons_nl]
  | cons c a' ih =>
    rw [List.cons_append, pySplitlines_cons_nb (hnb c (List.mem_cons_self _ _)),
      ih (fun x hx => hnb x (List.mem_cons_of_mem _ hx))]

theorem pySplitlines_intercalate {ls : List Str} (hne : ls ≠ [])
    (h : ∀ l ∈ ls, l ≠ [] ∧ ∀ c ∈ l, isLineBreak c = false) :
    pySplitlines (List.intercalate ['\n'] ls) = ls := by
  induction ls with
  | nil => exact absurd rfl hne
  | cons a tl ih =>
    cases tl with
    | nil =>
      rw [intercalate_single]
      exact pySplitlines_single (h a (List.mem_cons_self _ _)).1 (h a (List.mem_cons_self _ _)).2
    | cons b tl' =>
      rw [intercalate_cons₂,
        pySplitlines_append_nl _ (h a (List.mem_cons_self _ _)).2,
        ih (List.cons_ne_nil _ _) (fun l hl => h l (List.mem_cons_of_mem _ hl))]

theorem pySplitlines_no_break {s : Str} :
    ∀ l ∈ pySplitlines s, ∀ c ∈ l, isLineBreak c = false := by
  induction s with
  | nil => intro l hl; simp [pySplitlines] at hl
  | cons c rest ih =>
    intro l hl x hx
    rw [pySplitlines_cons, pySplitlinesStep.eq_def] at hl
    split at hl
    · exact ih l hl x hx
    · split at hl
      · rcases List.mem_cons.mp hl with h0 | h0
        · subst h0; simp at hx
        · exact ih l h0 x hx
      · rename_i hnb
        rcases hq : pySplitlines rest with _ | ⟨q, qs⟩
        · rw [hq] at hl
          simp only [List.mem_singleton] at hl
          subst hl
          simp only [List.mem_singleton] at hx
          subst hx
          simpa using hnb
        · rw [hq] at hl
          rcases List.mem_cons.mp hl with h0 | h0
          · subst h0
            rcases List.mem_cons.mp hx with h1 | h1
            · subst h1; simpa using hnb
            · have : q ∈ pySplitlines rest := by rw [hq]; exact List.mem_cons_self _ _
              exact ih q this x h1
          · have : l ∈ pySplitlines rest := by rw [hq]; exact List.mem_cons_of_mem _ h0
            exact ih l this x hx

theorem rstripNL_eq_self {l : Str} (h : '\n' ∉ l) : rstripNL l = l := by
  unfold rstripNL
  have : l.reverse.dropWhile (fun c => c = '\n') = l.reverse := by
    cases hr : l.reverse with
    | nil => rfl
    | cons a t =>
      have ha : a ∈ l := by
        rw [← List.mem_reverse, hr]
        exact List.mem_cons_self _ _
      rw [List.dropWhile_cons, if_neg (by simp; intro he; exact h (he ▸ ha))]
  rw [this, List.reverse_reverse]

theorem collectRun_all {ls : List Str}
    (h : ∀ l ∈ ls, rstripNL l = l ∧ l.contains '|' = true ∧ ¬(pyStrip l).isEmpty = true) :
    collectRun ls = ls := by
  induction ls with
  | nil => rfl
  | cons l t ih =>
    obtain ⟨h1, h2, h3⟩ := h l (List.mem_cons_self _ _)
    unfold collectRun
    simp only [h1, h2, h3]
    rw [ih (fun x hx => h x (List.mem_cons_of_mem _ hx))]
    simp

theorem collectRun_mem {ls : List Str} {x : Str} (hx : x ∈ collectRun ls) :
    ∃ l ∈ ls, x = rstripNL l := by
  induction ls with
  | nil => simp [collectRun] at hx
  | cons l t ih =>
    unfold collectRun at hx
    simp only [] at hx
    split at hx
    · rcases List.mem_cons.mp hx with h0 | h0
      · exact ⟨l, List.mem_cons_self _ _, h0⟩
      · obtain ⟨l', hl', he⟩ := ih h0
        exact ⟨l', List.mem_cons_of_mem _ hl', he⟩
    · simp at hx

theorem collectRun_length_le (ls : List Str) : (collectRun ls).length ≤ ls.length := by
  induction ls with
  | nil => simp [collectRun]
  | cons l t ih =>
    unfold collectRun
    simp only []
    split
    · simpa using ih
    · simp

theorem getD_map_range {α : Type} (f : Nat → α) {n i : Nat} (d : α) (h : i < n) :
    ((List.range n).map f).getD i d = f i := by
  rw [List.getD_eq_getElem?_getD, List.getElem?_map, List.getElem?_range h]
  rfl

theorem map_getD_range {α : Type} (l : List α) (d : α) :
    (List.range l.length).map (fun i => l.getD i d) = l := by
  induction l with
  | nil => rfl
  | cons a t ih =>
    rw [List.length_cons, List.range_succ_eq_map, List.map_cons, List.map_map]
    have : ((fun i => (a :: t).getD i d) ∘ Nat.succ) = fun i => t.getD i d := by
      funext i
      simp [List.getD_cons_succ]
    rw [this, ih]
    rfl

theorem mem_intercalate {d c : Char} {ps : List Str}
    (hc : c ∈ List.intercalate [d] ps) : c = d ∨ ∃ p ∈ ps, c ∈ p := by
  induction ps with
  | nil => simp [List.intercalate] at hc
  | cons a tl ih =>
    cases tl with
    | nil =>
      rw [intercalate_single] at hc
      exact Or.inr ⟨a, List.mem_cons_self _ _, hc⟩
    | cons b tl' =>
      rw [intercalate_cons₂] at hc
      rcases List.mem_append.mp hc with h0 | h0
      · exact Or.inr ⟨a, List.mem_cons_self _ _, h0⟩
      · rcases List.mem_cons.mp h0 with h1 | h1
        · exact Or.inl h1
        · rcases ih h1 with h2 | ⟨p, hp, hcp⟩
          · exact Or.inl h2
          · exact Or.inr ⟨p, List.mem_cons_of_mem _ hp, hcp⟩

/-! ## Lemmas about the rendered table text -/

namespace MarkdownTable

theorem goodCell_nil : goodCell [] := ⟨rfl, List.not_mem_nil _, fun _ h => absurd h (List.not_mem_nil _)⟩

theorem mem_fmt_cell {t : MarkdownTable} {cells : List Str} {i : Nat} {c : Char}
    (hc : c ∈ t.fmt_cell cells i) : c = ' ' ∨ c ∈ cellAt cells i := by
  rcases List.mem_cons.mp hc with h0 | h0
  · exact Or.inl h0
  · rcases List.mem_append.mp h0 with h1 | h1
    · unfold ljust at h1
      rcases List.mem_append.mp h1 with h2 | h2
      · exact Or.inr h2
      · exact Or.inl (List.mem_replicate.mp h2).2
    · simp only [List.mem_singleton] at h1
      exact Or.inl h1

theorem pyStrip_fmt_cell {t : MarkdownTable} {cells : List Str} {i : Nat}
    (h : pyStrip (cellAt cells i) = cellAt cells i) :
    pyStrip (t.fmt_cell cells i) = cellAt cells i := by
  unfold fmt_cell ljust
  exact pyStrip_pad h _

theorem mem_fmt_row {t : MarkdownTable} {cells : List Str} {c : Char}
    (hc : c ∈ t.fmt_row cells) :
    c = '|' ∨ c = ' ' ∨ ∃ i < t.header.length, c ∈ cellAt cells i := by
  rcases List.mem_cons.mp hc with h0 | h0
  · exact Or.inl h0
  · rcases List.mem_append.mp h0 with h1 | h1
    · rcases mem_intercalate h1 with h2 | ⟨p, hp, hcp⟩
      · exact Or.inl h2
      · obtain ⟨i, hi, rfl⟩ := List.mem_map.mp hp
        rcases mem_fmt_cell hcp with h3 | h3
        · exact Or.inr (Or.inl h3)
        · exact Or.inr (Or.inr ⟨i, List.mem_range.mp hi, h3⟩)
    · simp only [List.mem_singleton] at h1
      exact Or.inl h1

theorem mem_fmt_align {t : MarkdownTable} {i : Nat} {c : Char}
    (hc : c ∈ t.fmt_align i) : c = ':' ∨ c = '-' := by
  unfold fmt_align at hc
  split at hc
  · rcases List.mem_cons.mp hc with h0 | h0
    · exact Or.inl h0
    · exact Or.inr (List.mem_replicate.mp h0).2
  · rcases List.mem_append.mp hc with h0 | h0
    · exact Or.inr (List.mem_replicate.mp h0).2
    · simp only [List.mem_singleton] at h0
      exact Or.inl h0
  · rcases List.mem_cons.mp hc with h0 | h0
    · exact Or.inl h0
    · rcases List.mem_append.mp h0 with h1 | h1
      · exact Or.inr (List.mem_replicate.mp h1).2
      · simp only [List.mem_singleton] at h1
        exact Or.inl h1

theorem mem_sep_row {t : MarkdownTable} {c : Char} (hc : c ∈ t.sep_row) :
    c = '|' ∨ c = ':' ∨ c = '-' := by
  rcases List.mem_cons.mp hc with h0 | h0
  · exact Or.inl h0
  · rcases List.mem_append.mp h0 with h1 | h1
    · rcases mem_intercalate h1 with h2 | ⟨p, hp, hcp⟩
      · exact Or.inl h2
      · obtain ⟨i, _, rfl⟩ := List.mem_map.mp hp
        rcases mem_fmt_align hcp with h3 | h3
        · exact Or.inr (Or.inl h3)
        · exact Or.inr (Or.inr h3)
    · simp only [List.mem_singleton] at h1
      exact Or.inl h1

/-- Splitting a rendered row recovers the normalised cells. -/
theorem split_row_fmt_row (t : MarkdownTable) (cells : List Str)
    (hne : t.header ≠ [])
    (hcells : ∀ i < t.header.length,
      pyStrip (cellAt cells i) = cellAt cells i ∧ '|' ∉ cellAt cells i) :
    split_row (t.fmt_row cells) = (List.range t.header.length).map (cellAt cells) := by
  have hn : 0 < t.header.length := List.length_pos.mpr hne
  set pieces := (List.range t.header.length).map (t.fmt_cell cells) with hpieces
  have hpne : pieces ≠ [] := by
    rw [hpieces]
    simp only [ne_eq, List.map_eq_nil_iff, List.range_eq_nil]
    omega
  have hpnp : ∀ p ∈ pieces, '|' ∉ p := by
    intro p hp hmem
    obtain ⟨i, hi, rfl⟩ := List.mem_map.mp hp
    rcases mem_fmt_cell hmem with h0 | h0
    · exact absurd h0 (by decide)
    · exact (hcells i (List.mem_range.mp hi)).2 h0
  have hline : t.fmt_row cells = ('|' :: List.intercalate ['|'] pieces) ++ ['|'] := by
    unfold fmt_row
    rw [List.cons_append]
  unfold split_row
  have hstrip : pyStrip (t.fmt_row cells) = t.fmt_row cells := by
    apply pyStrip_eq_self
    · intro c hc
      unfold fmt_row at hc
      simp only [List.head?_cons, Option.some.injEq] at hc
      subst hc
      decide
    · intro c hc
      rw [hline, List.getLast?_concat, Option.some.injEq] at hc
      subst hc
      decide
  rw [hstrip]
  simp only [hline]
  rw [List.cons_append, List.head?_cons, if_pos rfl, List.tail_cons,
    List.getLast?_concat, if_pos rfl, List.dropLast_concat,
    splitOnChar_intercalate hpne hpnp, hpieces, List.map_map]
  apply List.map_congr_left
  intro i hi
  exact pyStrip_fmt_cell (hcells i (List.mem_range.mp hi)).1

end MarkdownTable

theorem pyStrip_eq_self_of_all {l : Str} (h : ∀ c ∈ l, pyIsSpace c = false) :
    pyStrip l = l :=
  pyStrip_eq_self
    (fun c hc => h c (List.mem_of_mem_head? (by simp [hc])))
    (fun c hc => h c (List.mem_of_mem_getLast? (by simp [hc])))

theorem head?_replicate_dash {k : Nat} (hk : 1 ≤ k) :
    (List.replicate k '-').head? = some '-' := by
  obtain ⟨k', rfl⟩ : ∃ k', k = k' + 1 := ⟨k - 1, by omega⟩
  rw [List.replicate_succ, List.head?_cons]

theorem getLast?_replicate_dash {k : Nat} (hk : 1 ≤ k) :
    (List.replicate k '-').getLast? = some '-' := by
  obtain ⟨k', rfl⟩ : ∃ k', k = k' + 1 := ⟨k - 1, by omega⟩
  rw [List.replicate_succ', List.getLast?_concat]

theorem sepCellOk_dashes {k : Nat} (hk : 2 ≤ k) :
    (decide (2 ≤ (List.replicate k '-').length) &&
      (List.replicate k '-').all (fun c => c = '-')) = true := by
  simp [List.all_replicate]
  omega

/-- A separator-shaped cell: `k` dashes with neither colon. -/
theorem sepCellOk_dashes_only {k : Nat} (hk : 2 ≤ k) :
    sepCellOk (List.replicate k '-') = true := by
  unfold sepCellOk
  rw [if_neg (by rw [head?_replicate_dash (by omega)]; simp)]
  simp only []
  rw [if_neg (by rw [getLast?_replicate_dash (by omega)]; simp)]
  exact sepCellOk_dashes hk

/-- A separator-shaped cell: leading colon then `k` dashes. -/
theorem sepCellOk_colon_dashes {k : Nat} (hk : 2 ≤ k) :
    sepCellOk (':' :: List.replicate k '-') = true := by
  unfold sepCellOk
  rw [if_pos (by rw [List.head?_cons]), List.tail_cons]
  simp only []
  rw [if_neg (by rw [getLast?_replicate_dash (by omega)]; simp)]
  exact sepCellOk_dashes hk

/-- A separator-shaped cell: `k` dashes then trailing colon. -/
theorem sepCellOk_dashes_colon {k : Nat} (hk : 2 ≤ k) :
    sepCellOk (List.replicate k '-' ++ [':']) = true := by
  unfold sepCellOk
  rw [if_neg (by
      rw [List.head?_append_of_ne_nil _ (by simp; omega), head?_replicate_dash (by omega)]
      simp)]
  simp only []
  rw [if_pos (by rw [List.getLast?_concat]), List.dropLast_concat]
  exact sepCellOk_dashes hk

/-- A separator-shaped cell: colons around `k` dashes. -/
theorem sepCellOk_colon_dashes_colon {k : Nat} (hk : 2 ≤ k) :
    sepCellOk (':' :: (List.replicate k '-' ++ [':'])) = true := by
  unfold sepCellOk
  rw [if_pos (by rw [List.head?_cons]), List.tail_cons]
  simp only []
  rw [if_pos (by rw [List.getLast?_concat]), List.dropLast_concat]
  exact sepCellOk_dashes hk

theorem pyStrip_colon_dash {s : Str} (h : ∀ c ∈ s, c = ':' ∨ c = '-') :
    pyStrip s = s :=
  pyStrip_eq_self_of_all (fun c hc => by rcases h c hc with h0 | h0 <;> subst h0 <;> decide)

namespace MarkdownTable

theorem pyStrip_fmt_align (t : MarkdownTable) (i : Nat) :
    pyStrip (t.fmt_align i) = t.fmt_align i :=
  pyStrip_colon_dash (fun _ hc => mem_fmt_align hc)

theorem sepCellOk_fmt_align (t : MarkdownTable) (i : Nat) (h1 : 1 ≤ t.width i)
    (h2 : t.alignAt i = .center → 2 ≤ t.width i) :
    sepCellOk (t.fmt_align i) = true := by
  rcases ha : t.alignAt i with _ | _ | _ <;> unfold fmt_align <;> rw [ha]
  · exact sepCellOk_colon_dashes (by omega)
  · exact sepCellOk_dashes_colon (by omega)
  · exact sepCellOk_colon_dashes_colon (h2 ha)

theorem align_of_fmt_align (t : MarkdownTable) (i : Nat) :
    align_of (t.fmt_align i) = t.alignAt i := by
  rcases ha : t.alignAt i with _ | _ | _ <;> unfold fmt_align <;> rw [ha] <;>
    unfold align_of
  · have hstrip : pyStrip (':' :: List.replicate (t.width i + 1) '-') =
        ':' :: List.replicate (t.width i + 1) '-' := by
      apply pyStrip_colon_dash
      intro c hc
      rcases List.mem_cons.mp hc with h0 | h0
      · exact Or.inl h0
      · exact Or.inr (List.mem_replicate.mp h0).2
    rw [hstrip]
    simp only []
    have hl : (':' :: List.replicate (t.width i + 1) '-').getLast? = some '-' := by
      rw [List.replicate_succ', ← List.cons_append, List.getLast?_concat]
    rw [if_neg (by rw [hl]; simp), if_neg (by rw [hl]; simp)]
  · have hstrip : pyStrip (List.replicate (t.width i + 1) '-' ++ [':']) =
        List.replicate (t.width i + 1) '-' ++ [':'] := by
      apply pyStrip_colon_dash
      intro c hc
      rcases List.mem_append.mp hc with h0 | h0
      · exact Or.inr (List.mem_replicate.mp h0).2
      · simp only [List.mem_singleton] at h0
        exact Or.inl h0
    rw [hstrip]
    simp only []
    have hh : (List.replicate (t.width i + 1) '-' ++ [':']).head? = some '-' := by
      rw [List.head?_append_of_ne_nil _ (by simp), head?_replicate_dash (by omega)]
    rw [if_neg (by rw [hh]; simp), if_pos (by rw [List.getLast?_concat])]
  · have hstrip : pyStrip (':' :: (List.replicate (t.width i) '-' ++ [':'])) =
        ':' :: (List.replicate (t.width i) '-' ++ [':']) := by
      apply pyStrip_colon_dash
      intro c hc
      rcases List.mem_cons.mp hc with h0 | h0
      · exact Or.inl h0
      · rcases List.mem_append.mp h0 with h1 | h1
        · exact Or.inr (List.mem_replicate.mp h1).2
        · simp only [List.mem_singleton] at h1
          exact Or.inl h1
    rw [hstrip]
    simp only []
    have hl : (':' :: (List.replicate (t.width i) '-' ++ [':'])).getLast? = some ':' := by
      rw [← List.cons_append, List.getLast?_concat]
    rw [if_pos ⟨List.head?_cons, hl⟩]

/-- Splitting the rendered separator row recovers the separator cells. -/
theorem split_row_sep_row (t : MarkdownTable) (hne : t.header ≠ []) :
    split_row t.sep_row = (List.range t.header.length).map t.fmt_align := by
  have hn : 0 < t.header.length := List.length_pos.mpr hne
  set pieces := (List.range t.header.length).map t.fmt_align with hpieces
  have hpne : pieces ≠ [] := by
    rw [hpieces]
    simp only [ne_eq, List.map_eq_nil_iff, List.range_eq_nil]
    omega
  have hpnp : ∀ p ∈ pieces, '|' ∉ p := by
    intro p hp hmem
    obtain ⟨i, _, rfl⟩ := List.mem_map.mp hp
    rcases mem_fmt_align hmem with h0 | h0 <;> exact absurd h0 (by decide)
  have hline : t.sep_row = ('|' :: List.intercalate ['|'] pieces) ++ ['|'] := by
    unfold sep_row
    rw [List.cons_append]
  unfold split_row
  have hstrip : pyStrip t.sep_row = t.sep_row := by
    apply pyStrip_eq_self
    · intro c hc
      unfold sep_row at hc
      simp only [List.head?_cons, Option.some.injEq] at hc
      subst hc
      decide
    · intro c hc
      rw [hline, List.getLast?_concat, Option.some.injEq] at hc
      subst hc
      decide
  rw [hstrip]
  simp only [hline]
  rw [List.cons_append, List.head?_cons, if_pos rfl, List.tail_cons,
    List.getLast?_concat, if_pos rfl, List.dropLast_concat,
    splitOnChar_intercalate hpne hpnp, hpieces, List.map_map]
  apply List.map_congr_left
  intro i _
  exact pyStrip_fmt_align t i

end MarkdownTable

open MarkdownTable in
theorem mem_cellAt {cells : List Str} {i : Nat} {c : Char} (hc : c ∈ cellAt cells i) :
    ∃ cell ∈ cells, c ∈ cell := by
  unfold cellAt at hc
  rw [List.getD_eq_getElem?_getD] at hc
  rcases hlt : cells[i]? with _ | cell
  · rw [hlt] at hc; simp at hc
  · rw [hlt] at hc
    exact ⟨cell, List.getElem?_mem hlt, hc⟩

open MarkdownTable in
theorem cellAt_good {cells : List Str} (h : ∀ cell ∈ cells, goodCell cell) (i : Nat) :
    goodCell (cellAt cells i) := by
  unfold cellAt
  rw [List.getD_eq_getElem?_getD]
  rcases hlt : cells[i]? with _ | cell
  · exact goodCell_nil
  · exact h cell (List.getElem?_mem hlt)

open MarkdownTable in
/-- Every character of a rendered table line is a pipe, a space, a colon, a
dash, or a character of one of the table's cells. -/
theorem mem_md_line {t : MarkdownTable} {l : Str} {c : Char}
    (hl : l ∈ [t.fmt_row t.header, t.sep_row] ++ t.rows.map t.fmt_row) (hc : c ∈ l) :
    c = '|' ∨ c = ' ' ∨ c = ':' ∨ c = '-' ∨
      (∃ cell ∈ t.header, c ∈ cell) ∨ ∃ r ∈ t.rows, ∃ cell ∈ r, c ∈ cell := by
  rcases List.mem_cons.mp hl with h0 | h0
  · subst h0
    rcases mem_fmt_row hc with h1 | h1 | ⟨i, _, h1⟩
    · exact Or.inl h1
    · exact Or.inr (Or.inl h1)
    · obtain ⟨cell, hcell, hmem⟩ := mem_cellAt h1
      exact Or.inr (Or.inr (Or.inr (Or.inr (Or.inl ⟨cell, hcell, hmem⟩))))
  · rcases List.mem_cons.mp h0 with h1 | h1
    · subst h1
      rcases mem_sep_row hc with h2 | h2 | h2
      · exact Or.inl h2
      · exact Or.inr (Or.inr (Or.inl h2))
      · exact Or.inr (Or.inr (Or.inr (Or.inl h2)))
    · obtain ⟨r, hrmem, rfl⟩ := List.mem_map.mp h1
      rcases mem_fmt_row hc with h2 | h2 | ⟨i, _, h2⟩
      · exact Or.inl h2
      · exact Or.inr (Or.inl h2)
      · obtain ⟨cell, hcell, hmem⟩ := mem_cellAt h2
        exact Or.inr (Or.inr (Or.inr (Or.inr (Or.inr ⟨r, hrmem, cell, hcell, hmem⟩))))

open MarkdownTable in
/-- A good table's rendered lines contain no line-break characters. -/
theorem md_line_no_break {t : MarkdownTable} (hg : goodTable t) {l : Str}
    (hl : l ∈ [t.fmt_row t.header, t.sep_row] ++ t.rows.map t.fmt_row) :
    ∀ c ∈ l, isLineBreak c = false := by
  obtain ⟨-, hh, hr, -⟩ := hg
  intro c hc
  rcases mem_md_line hl hc with h | h | h | h | ⟨cell, hcell, hmem⟩ | ⟨r, hrmem, cell, hcell, hmem⟩
  · subst h; decide
  · subst h; decide
  · subst h; decide
  · subst h; decide
  · exact (hh cell hcell).2.2 c hmem
  · exact (hr r hrmem cell hcell).2.2 c hmem

open MarkdownTable in
/-- Each rendered line of a table starts with a pipe. -/
theorem md_line_head {t : MarkdownTable} {l : Str}
    (hl : l ∈ [t.fmt_row t.header, t.sep_row] ++ t.rows.map t.fmt_row) :
    l.head? = some '|' := by
  rcases List.mem_cons.mp hl with h0 | h0
  · subst h0; rfl
  · rcases List.mem_cons.mp h0 with h1 | h1
    · subst h1; rfl
    · obtain ⟨r, _, rfl⟩ := List.mem_map.mp h1
      rfl

open MarkdownTable in
/-- Splitting the rendered text of a good table recovers its lines. -/
theorem pySplitlines_to_markdown {t : MarkdownTable} (hg : goodTable t) :
    pySplitlines t.to_markdown = [t.fmt_row t.header, t.sep_row] ++ t.rows.map t.fmt_row := by
  unfold to_markdown
  apply pySplitlines_intercalate (by simp)
  intro l hl
  constructor
  · intro h0
    rw [h0] at hl
    exact absurd (md_line_head hl) (by simp)
  · exact md_line_no_break hg hl

open MarkdownTable in
/-- Each rendered line of a table ends with a pipe. -/
theorem md_line_last {t : MarkdownTable} {l : Str}
    (hl : l ∈ [t.fmt_row t.header, t.sep_row] ++ t.rows.map t.fmt_row) :
    l.getLast? = some '|' := by
  rcases List.mem_cons.mp hl with h0 | h0
  · subst h0
    unfold fmt_row
    rw [← List.cons_append, List.getLast?_concat]
  · rcases List.mem_cons.mp h0 with h1 | h1
    · subst h1
      unfold sep_row
      rw [← List.cons_append, List.getLast?_concat]
    · obtain ⟨r, _, rfl⟩ := List.mem_map.mp h1
      unfold fmt_row
      rw [← List.cons_append, List.getLast?_concat]

open MarkdownTable in
/-- The collection loop of the parser collects exactly the rendered lines. -/
theorem collectRun_to_markdown {t : MarkdownTable} (hg : goodTable t) :
    collectRun ([t.fmt_row t.header, t.sep_row] ++ t.rows.map t.fmt_row) =
      [t.fmt_row t.header, t.sep_row] ++ t.rows.map t.fmt_row := by
  apply collectRun_all
  intro l hl
  have hhd := md_line_head hl
  have hlast := md_line_last hl
  have hnb := md_line_no_break hg hl
  have hnn : '\n' ∉ l := fun hmem => absurd (hnb '\n' hmem) (by decide)
  have hstrip : pyStrip l = l := pyStrip_eq_self
    (fun c hc => by rw [hhd, Option.some.injEq] at hc; subst hc; decide)
    (fun c hc => by rw [hlast, Option.some.injEq] at hc; subst hc; decide)
  refine ⟨rstripNL_eq_self hnn, ?_, ?_⟩
  · have : '|' ∈ l := List.mem_of_mem_head? (by simp [hhd])
    simpa [List.contains] using this
  · rw [hstrip]
    cases l with
    | nil => simp at hhd
    | cons a t' => simp

open MarkdownTable in
/-- Parsing the rendered text of a good table succeeds, consumes every line,
and reconstructs the normalised table. -/
theorem parse_to_markdown (t : MarkdownTable) (hg : goodTable t) :
    parse_pipe_table (pySplitlines t.to_markdown) 0 = (some (normalize t), 2 + t.rows.length) := by
  obtain ⟨hne, hh, hr, hw⟩ := hg
  have hlines := pySplitlines_to_markdown ⟨hne, hh, hr, hw⟩
  unfold parse_pipe_table
  rw [List.drop_zero, hlines, collectRun_to_markdown ⟨hne, hh, hr, hw⟩]
  simp only [List.cons_append, List.nil_append]
  have hsep : split_row t.sep_row = (List.range t.header.length).map t.fmt_align :=
    split_row_sep_row t hne
  have hall : ((List.range t.header.length).map t.fmt_align).all reMatchSep = true := by
    rw [List.all_eq_true]
    intro seg hseg
    obtain ⟨i, hi, rfl⟩ := List.mem_map.mp hseg
    unfold reMatchSep
    rw [sepCellOk_fmt_align t i (hw i (List.mem_range.mp hi)).1 (hw i (List.mem_range.mp hi)).2]
    rfl
  have hheader : split_row (t.fmt_row t.header) = t.header := by
    rw [split_row_fmt_row t t.header hne
      (fun i _ => ⟨(cellAt_good hh i).1, (cellAt_good hh i).2.1⟩)]
    exact map_getD_range t.header []
  have haligns : ((List.range t.header.length).map t.fmt_align).map align_of = canonAligns t := by
    rw [List.map_map]
    exact List.map_congr_left (fun i _ => align_of_fmt_align t i)
  have hrows : (t.rows.map t.fmt_row).map split_row = t.rows.map (canonRow t.header.length) := by
    rw [List.map_map]
    apply List.map_congr_left
    intro r hrmem
    show split_row (t.fmt_row r) = canonRow t.header.length r
    rw [split_row_fmt_row t r hne
      (fun i _ => ⟨(cellAt_good (hr r hrmem) i).1, (cellAt_good (hr r hrmem) i).2.1⟩)]
    rfl
  rw [hsep, if_pos hall, hheader, haligns, hrows]
  unfold normalize
  simp [List.length_map]

open MarkdownTable in
theorem cellAt_canonRow {n i : Nat} (r : List Str) (hi : i < n) :
    cellAt (canonRow n r) i = cellAt r i := by
  unfold canonRow cellAt
  exact getD_map_range _ _ hi

open MarkdownTable in
theorem width_normalize (t : MarkdownTable) {i : Nat} (hi : i < t.header.length) :
    (normalize t).width i = t.width i := by
  unfold width normalize
  simp only []
  rw [List.foldl_map]
  have : (fun (w : Nat) (r : List Str) => max w (cellAt (canonRow t.header.length r) i).length)
      = fun (w : Nat) (r : List Str) => max w (cellAt r i).length := by
    funext w r
    rw [cellAt_canonRow r hi]
  rw [this]

open MarkdownTable in
theorem alignAt_normalize (t : MarkdownTable) {i : Nat} (hi : i < t.header.length) :
    (normalize t).alignAt i = t.alignAt i := by
  unfold alignAt normalize canonAligns
  simp only []
  exact getD_map_range _ _ hi

open MarkdownTable in
theorem fmt_cell_normalize (t : MarkdownTable) (cells : List Str) {i : Nat}
    (hi : i < t.header.length) :
    (normalize t).fmt_cell (canonRow t.header.length cells) i = t.fmt_cell cells i := by
  unfold fmt_cell
  rw [width_normalize t hi, cellAt_canonRow cells hi]

open MarkdownTable in
theorem fmt_row_normalize_header (t : MarkdownTable) :
    (normalize t).fmt_row (normalize t).header = t.fmt_row t.header := by
  unfold fmt_row
  have : (normalize t).header = t.header := rfl
  rw [this]
  congr 1
  congr 1
  congr 1
  apply List.map_congr_left
  intro i hi
  unfold fmt_cell
  rw [width_normalize t (List.mem_range.mp hi)]

open MarkdownTable in
theorem fmt_row_normalize_row (t : MarkdownTable) (r : List Str) :
    (normalize t).fmt_row (canonRow t.header.length r) = t.fmt_row r := by
  unfold fmt_row
  have : (normalize t).header = t.header := rfl
  rw [this]
  congr 1
  congr 1
  congr 1
  apply List.map_congr_left
  intro i hi
  exact fmt_cell_normalize t r (List.mem_range.mp hi)

open MarkdownTable in
theorem sep_row_normalize (t : MarkdownTable) :
    (normalize t).sep_row = t.sep_row := by
  unfold sep_row
  have : (normalize t).header = t.header := rfl
  rw [this]
  congr 1
  congr 1
  congr 1
  apply List.map_congr_left
  intro i hi
  unfold fmt_align
  rw [width_normalize t (List.mem_range.mp hi), alignAt_normalize t (List.mem_range.mp hi)]

open MarkdownTable in
/-- Rendering the normalised table gives exactly the original rendering. -/
theorem to_markdown_normalize (t : MarkdownTable) :
    (normalize t).to_markdown = t.to_markdown := by
  unfold to_markdown
  rw [fmt_row_normalize_header, sep_row_normalize]
  have hrows : (normalize t).rows.map (normalize t).fmt_row = t.rows.map t.fmt_row := by
    show (t.rows.map (canonRow t.header.length)).map (normalize t).fmt_row = _
    rw [List.map_map]
    apply List.map_congr_left
    intro r _
    exact fmt_row_normalize_row t r
  rw [hrows]

open MarkdownTable in
theorem goodTable_normalize {t : MarkdownTable} (hg : goodTable t) :
    goodTable (normalize t) := by
  obtain ⟨hne, hh, hr, hw⟩ := hg
  refine ⟨hne, hh, ?_, ?_⟩
  · intro r' hr' c hc
    obtain ⟨r, hrmem, rfl⟩ := List.mem_map.mp hr'
    obtain ⟨i, _, rfl⟩ := List.mem_map.mp hc
    exact cellAt_good (hr r hrmem) i
  · intro i hi
    have hi' : i < t.header.length := hi
    rw [width_normalize t hi', alignAt_normalize t hi']
    exact hw i hi'

open MarkdownTable in
theorem normalize_normalize (t : MarkdownTable) :
    normalize (normalize t) = normalize t := by
  unfold normalize
  simp only []
  congr 1
  · show (List.range t.header.length).map (normalize t).alignAt = canonAligns t
    apply List.map_congr_left
    intro i hi
    exact alignAt_normalize t (List.mem_range.mp hi)
  · show (t.rows.map (canonRow t.header.length)).map (canonRow t.header.length) = _
    rw [List.map_map]
    apply List.map_congr_left
    intro r _
    show canonRow t.header.length (canonRow t.header.length r) = canonRow t.header.length r
    unfold canonRow
    apply List.map_congr_left
    intro i hi
    exact cellAt_canonRow r (List.mem_range.mp hi)

/-! ## Characterisation of the parser and the scanning loop -/

theorem parse_some_bounds {lines : List Str} {i j : Nat} {t : MarkdownTable}
    (hp : parse_pipe_table lines i = (some t, j)) :
    i + 2 ≤ j ∧ j ≤ lines.length := by
  unfold parse_pipe_table at hp
  rcases hc : collectRun (lines.drop i) with _ | ⟨a, tl⟩
  · rw [hc] at hp; simp at hp
  · rcases tl with _ | ⟨b, rest⟩
    · rw [hc] at hp; simp at hp
    · rw [hc] at hp
      simp only [] at hp
      split at hp
      · simp only [Prod.mk.injEq] at hp
        have hlen := collectRun_length_le (lines.drop i)
        rw [hc] at hlen
        have hdne : lines.drop i ≠ [] := by
          intro h0
          rw [h0] at hc
          simp [collectRun] at hc
        have hilen : i < lines.length := by
          by_contra hge
          exact hdne (List.drop_eq_nil_of_le (by omega))
        rw [List.length_drop] at hlen
        simp only [List.length_cons] at hlen
        omega
      · simp at hp

theorem parse_fst_none {lines : List Str} {i : Nat}
    (hp : (parse_pipe_table lines i).1 = none) :
    parse_pipe_table lines i = (none, i) := by
  unfold parse_pipe_table at hp ⊢
  rcases hc : collectRun (lines.drop i) with _ | ⟨a, tl⟩
  · rfl
  · rcases tl with _ | ⟨b, rest⟩
    · rfl
    · rw [hc] at hp
      simp only [] at hp ⊢
      split at hp
      · simp at hp
      · rename_i hnall
        rw [if_neg hnall]

theorem find_tables_go_stop {lines : List Str} {i : Nat} (h : ¬ i < lines.length) :
    find_tables_go lines i = [] := by
  rw [find_tables_go.eq_def, dif_neg h]

theorem find_tables_go_some {lines : List Str} {i j : Nat} {t : MarkdownTable}
    (h : i < lines.length) (hp : parse_pipe_table lines i = (some t, j)) :
    find_tables_go lines i = (i, j, t) :: find_tables_go lines j := by
  rw [find_tables_go.eq_def, dif_pos h]
  split
  · rename_i t' j' hp'
    rw [hp] at hp'
    simp only [Prod.mk.injEq, Option.some.injEq] at hp'
    rw [hp'.1, hp'.2]
  · rename_i k hp'
    rw [hp] at hp'
    simp at hp'

theorem find_tables_go_none {lines : List Str} {i k : Nat}
    (h : i < lines.length) (hp : parse_pipe_table lines i = (none, k)) :
    find_tables_go lines i = find_tables_go lines (i + 1) := by
  rw [find_tables_go.eq_def, dif_pos h]
  split
  · rename_i t' j' hp'
    rw [hp] at hp'
    simp at hp'
  · rfl

/-- Every region of the scanning loop starts at or after `i`, spans at least
two lines, ends within the input, and is the result of a successful parse at
its start; and consecutive regions are ordered end-before-start. -/
theorem find_tables_go_spec (N : Nat) (lines : List Str) (i : Nat)
    (hN : lines.length - i ≤ N) :
    (∀ r ∈ find_tables_go lines i,
      (i ≤ r.1 ∧ r.1 + 2 ≤ r.2.1 ∧ r.2.1 ≤ lines.length) ∧
        parse_pipe_table lines r.1 = (some r.2.2, r.2.1)) ∧
    List.Pairwise (fun a b : Nat × Nat × MarkdownTable => a.2.1 ≤ b.1)
      (find_tables_go lines i) := by
  induction N generalizing i with
  | zero =>
    have h0 : ¬ i < lines.length := by omega
    rw [find_tables_go_stop h0]
    exact ⟨fun r hr => absurd hr (List.not_mem_nil _), List.Pairwise.nil⟩
  | succ n ih =>
    by_cases hlt : i < lines.length
    · rcases hp : parse_pipe_table lines i with ⟨o, j⟩
      rcases o with _ | t
      · rw [find_tables_go_none hlt hp]
        have := ih (i + 1) (by omega)
        refine ⟨fun r hr => ?_, this.2⟩
        obtain ⟨⟨h1, h2, h3⟩, h4⟩ := this.1 r hr
        exact ⟨⟨by omega, h2, h3⟩, h4⟩
      · rw [find_tables_go_some hlt hp]
        obtain ⟨hij, hjl⟩ := parse_some_bounds hp
        have hrec := ih j (by omega)
        constructor
        · intro r hr
          rcases List.mem_cons.mp hr with h0 | h0
          · subst h0
            exact ⟨⟨le_refl _, hij, hjl⟩, hp⟩
          · obtain ⟨⟨h1, h2, h3⟩, h4⟩ := hrec.1 r h0
            exact ⟨⟨by omega, h2, h3⟩, h4⟩
        · refine List.Pairwise.cons (fun b hb => ?_) hrec.2
          exact (hrec.1 b hb).1.1
    · rw [find_tables_go_stop hlt]
      exact ⟨fun r hr => absurd hr (List.not_mem_nil _), List.Pairwise.nil⟩

theorem subset_ite_dropLast {P : Prop} [Decidable P] (x : Str) :
    (if P then x.dropLast else x) ⊆ x := by
  split
  · exact List.dropLast_subset x
  · exact List.Subset.refl x

theorem subset_ite_tail {P : Prop} [Decidable P] (x : Str) :
    (if P then x.tail else x) ⊆ x := by
  split
  · exact List.tail_subset x
  · exact List.Subset.refl x

/-- Every cell produced by `split_row` is fixed by `strip`, contains no pipe,
and is built from characters of the input line. -/
theorem split_row_props {s : Str} :
    ∀ cell ∈ split_row s, pyStrip cell = cell ∧ '|' ∉ cell ∧ cell ⊆ s := by
  intro cell hc
  unfold split_row at hc
  simp only [] at hc
  obtain ⟨y, hy, rfl⟩ := List.mem_map.mp hc
  refine ⟨pyStrip_idem y, ?_, ?_⟩
  · intro hmem
    exact not_mem_of_mem_splitOnChar hy (pyStrip_subset y hmem)
  · intro c hcm
    have h1 : c ∈ y := pyStrip_subset y hcm
    have h2 := mem_splitOnChar_subset hy h1
    have h3 := subset_ite_dropLast _ h2
    have h4 := subset_ite_tail _ h3
    exact pyStrip_subset s h4

theorem reMatchSep_strip (y : Str) : reMatchSep (pyStrip y) = sepCellOk (pyStrip y) := by
  unfold reMatchSep
  rcases hl : (pyStrip y).getLast? with _ | c
  · simp
  · have hns := pyStrip_getLast?_false hl
    have hcn : ¬((some c : Option Char) = some '\n') := by
      intro h0
      injection h0 with h0
      subst h0
      simp [pyIsSpace] at hns
    simp [hcn]

/-- On the cells that `split_row` actually produces (always stripped), the
source's regular expression agrees with the plain separator pattern: the `$`
newline quirk is unreachable. -/
theorem reMatchSep_split_row {b seg : Str} (h : seg ∈ split_row b) :
    reMatchSep seg = sepCellOk seg := by
  unfold split_row at h
  simp only [] at h
  obtain ⟨y, -, rfl⟩ := List.mem_map.mp h
  exact reMatchSep_strip y

/-- `parse_pipe_table` fails, leaving the index unchanged, exactly when fewer
than two lines are collected or a cell of the second collected line fails the
separator pattern. -/
theorem parse_none_iff (lines : List Str) (i : Nat) :
    parse_pipe_table lines i = (none, i) ↔
      ((collectRun (lines.drop i)).length < 2 ∨
        ∃ seg ∈ split_row ((collectRun (lines.drop i)).getD 1 []), sepCellOk seg = false) := by
  rcases hc : collectRun (lines.drop i) with _ | ⟨a, tl⟩
  · apply iff_of_true
    · unfold parse_pipe_table
      rw [hc]
    · exact Or.inl (by simp)
  · rcases tl with _ | ⟨b, rest⟩
    · apply iff_of_true
      · unfold parse_pipe_table
        rw [hc]
      · exact Or.inl (by simp)
    · by_cases hall : (split_row b).all reMatchSep = true
      · apply iff_of_false
        · unfold parse_pipe_table
          rw [hc]
          simp only []
          rw [if_pos hall]
          simp
        · rintro (h0 | ⟨seg, hseg, hbad⟩)
          · simp only [List.length_cons] at h0
            omega
          · rw [List.getD_cons_succ, List.getD_cons_zero] at hseg
            have := List.all_eq_true.mp hall seg hseg
            rw [reMatchSep_split_row hseg] at this
            rw [this] at hbad
            exact absurd hbad (by simp)
      · apply iff_of_true
        · unfold parse_pipe_table
          rw [hc]
          simp only []
          rw [if_neg hall]
        · refine Or.inr ?_
          rw [List.getD_cons_succ, List.getD_cons_zero]
          rw [List.all_eq_true] at hall
          push_neg at hall
          obtain ⟨seg, hseg, hbad⟩ := hall
          refine ⟨seg, hseg, ?_⟩
          rw [← reMatchSep_split_row hseg]
          simpa using hbad

theorem find_tables_spec (text : Str) :
    (∀ r ∈ find_tables text,
      (r.1 + 2 ≤ r.2.1 ∧ r.2.1 ≤ (pySplitlines text).length) ∧
        parse_pipe_table (pySplitlines text) r.1 = (some r.2.2, r.2.1)) ∧
    List.Pairwise (fun a b : Nat × Nat × MarkdownTable => a.2.1 ≤ b.1) (find_tables text) := by
  have := find_tables_go_spec (pySplitlines text).length (pySplitlines text) 0 (by omega)
  exact ⟨fun r hr => ⟨⟨(this.1 r hr).1.2.1, (this.1 r hr).1.2.2⟩, (this.1 r hr).2⟩, this.2⟩

/-! ## Lemmas about the delimited-text reader -/

theorem csv_foldl_inQuoted (d : Char) (f : Str) (fs : List Str) (rs : List (List Str))
    {s : Str} (hq : ∀ c ∈ s, ¬(c = '"')) :
    s.foldl (csvStep d) ⟨.inQuoted, f, fs, rs⟩ = ⟨.inQuoted, f ++ s, fs, rs⟩ := by
  induction s generalizing f with
  | nil => simp
  | cons c s' ih =>
    rw [List.foldl_cons]
    have hstep : csvStep d ⟨.inQuoted, f, fs, rs⟩ c = ⟨.inQuoted, f ++ [c], fs, rs⟩ := by
      unfold csvStep
      simp only []
      rw [if_neg (hq c (List.mem_cons_self _ _))]
    rw [hstep, ih (f ++ [c]) (fun x hx => hq x (List.mem_cons_of_mem _ hx))]
    simp

/-- Reading a single line consisting of one quoted field: the field's
characters (which may include the delimiter) are returned verbatim. -/
theorem parse_delimited_quoted (d : Char) {s : Str}
    (hq : ∀ c ∈ s, ¬(c = '"')) (hb : ∀ c ∈ s, isLineBreak c = false) :
    parse_delimited ('"' :: (s ++ ['"'])) d = [[s]] := by
  unfold parse_delimited
  have hsplit : pySplitlines ('"' :: (s ++ ['"'])) = ['"' :: (s ++ ['"'])] := by
    apply pySplitlines_single (List.cons_ne_nil _ _)
    intro c hc
    rcases List.mem_cons.mp hc with h0 | h0
    · subst h0; decide
    · rcases List.mem_append.mp h0 with h1 | h1
      · exact hb c h1
      · simp only [List.mem_singleton] at h1
        subst h1; decide
  rw [hsplit]
  unfold csv_reader
  rw [List.foldl_cons, List.foldl_nil, List.foldl_cons]
  have h1 : csvStep d ⟨.startRecord, [], [], []⟩ '"' = ⟨.inQuoted, [], [], []⟩ := rfl
  rw [h1, List.foldl_append, csv_foldl_inQuoted d [] [] [] hq, List.foldl_cons, List.foldl_nil]
  have h2 : csvStep d ⟨.inQuoted, [] ++ s, [], []⟩ '"' = ⟨.quoteInQuoted, [] ++ s, [], []⟩ := by
    unfold csvStep
    simp
  rw [h2]
  simp [csvEOL, csvFinish]

/-- Reading one quoted field whose text spans a line break: the reader joins
the two halves, dropping the break character consumed by `splitlines`. -/
theorem parse_delimited_quoted_nl (d : Char) {s u : Str}
    (hqs : ∀ c ∈ s, ¬(c = '"')) (hbs : ∀ c ∈ s, isLineBreak c = false)
    (hqu : ∀ c ∈ u, ¬(c = '"')) (hbu : ∀ c ∈ u, isLineBreak c = false) :
    parse_delimited ('"' :: (s ++ '\n' :: (u ++ ['"']))) d = [[s ++ u]] := by
  unfold parse_delimited
  have hsplit : pySplitlines ('"' :: (s ++ '\n' :: (u ++ ['"'])))
      = [('"' :: s), u ++ ['"']] := by
    rw [show '"' :: (s ++ '\n' :: (u ++ ['"'])) = ('"' :: s) ++ '\n' :: (u ++ ['"']) by simp]
    rw [pySplitlines_append_nl _ (fun c hc => by
      rcases List.mem_cons.mp hc with h0 | h0
      · subst h0; decide
      · exact hbs c h0)]
    rw [pySplitlines_single (by simp) (fun c hc => by
      rcases List.mem_append.mp hc with h0 | h0
      · exact hbu c h0
      · simp only [List.mem_singleton] at h0
        subst h0; decide)]
  rw [hsplit]
  unfold csv_reader
  rw [List.foldl_cons, List.foldl_cons, List.foldl_nil, List.foldl_cons]
  have h1 : csvStep d ⟨.startRecord, [], [], []⟩ '"' = ⟨.inQuoted, [], [], []⟩ := rfl
  rw [h1, csv_foldl_inQuoted d [] [] [] hqs]
  have h2 : csvEOL ⟨.inQuoted, [] ++ s, [], []⟩ = ⟨.inQuoted, [] ++ s, [], []⟩ := rfl
  rw [h2, List.foldl_append, csv_foldl_inQuoted d ([] ++ s) [] [] hqu,
    List.foldl_cons, List.foldl_nil]
  have h3 : csvStep d ⟨.inQuoted, ([] ++ s) ++ u, [], []⟩ '"'
      = ⟨.quoteInQuoted, ([] ++ s) ++ u, [], []⟩ := by
    unfold csvStep
    simp
  rw [h3]
  simp [csvEOL, csvFinish]

/-! ## Remaining support lemmas -/

theorem rstripNL_subset (l : Str) : rstripNL l ⊆ l := by
  intro c hc
  unfold rstripNL at hc
  rw [List.mem_reverse] at hc
  have h1 := (List.dropWhile_suffix (l := l.reverse) (fun c => c = '\n')).mem hc
  rwa [List.mem_reverse] at h1

open MarkdownTable in
/-- A table parsed from break-free lines has stripped, pipe-free,
newline-free cells everywhere. -/
theorem parse_cells {lines : List Str} {start j : Nat} {t : MarkdownTable}
    (hnb : ∀ l ∈ lines, ∀ c ∈ l, isLineBreak c = false)
    (hp : parse_pipe_table lines start = (some t, j)) :
    (∀ c ∈ t.header, pyStrip c = c ∧ '|' ∉ c ∧ '\n' ∉ c) ∧
    (∀ r ∈ t.rows, ∀ c ∈ r, pyStrip c = c ∧ '|' ∉ c ∧ '\n' ∉ c) := by
  have hline : ∀ x ∈ collectRun (lines.drop start), ∀ c ∈ x, isLineBreak c = false := by
    intro x hx c hc
    obtain ⟨l, hl, rfl⟩ := collectRun_mem hx
    exact hnb l (List.drop_subset _ _ hl) c (rstripNL_subset l hc)
  have hcell : ∀ x ∈ collectRun (lines.drop start), ∀ cell ∈ split_row x,
      pyStrip cell = cell ∧ '|' ∉ cell ∧ '\n' ∉ cell := by
    intro x hx cell hcm
    obtain ⟨h1, h2, h3⟩ := split_row_props cell hcm
    refine ⟨h1, h2, fun hmem => ?_⟩
    exact absurd (hline x hx '\n' (h3 hmem)) (by decide)
  unfold parse_pipe_table at hp
  rcases hc : collectRun (lines.drop start) with _ | ⟨a, tl⟩
  · rw [hc] at hp; simp at hp
  · rcases tl with _ | ⟨b, rest⟩
    · rw [hc] at hp; simp at hp
    · rw [hc] at hp
      simp only [] at hp
      split at hp
      · simp only [Prod.mk.injEq, Option.some.injEq] at hp
        obtain ⟨ht, -⟩ := hp
        subst ht
        constructor
        · intro c hcm
          exact hcell a (by rw [hc]; exact List.mem_cons_self _ _) c hcm
        · intro r hr c hcm
          obtain ⟨x, hx, rfl⟩ := List.mem_map.mp hr
          refine hcell x ?_ c hcm
          rw [hc]
          exact List.mem_cons_of_mem _ (List.mem_cons_of_mem _ hx)
      · simp at hp

/-- Every string accepted by the separator pattern is an optional leading
colon, at least two dashes, and an optional trailing colon. -/
theorem sepCellOk_shape_of {s : Str} (h : sepCellOk s = true) :
    ∃ k, 2 ≤ k ∧
      (s = List.replicate k '-' ∨ s = ':' :: List.replicate k '-' ∨
        s = List.replicate k '-' ++ [':'] ∨ s = ':' :: (List.replicate k '-' ++ [':'])) := by
  unfold sepCellOk at h
  simp only [] at h
  rw [Bool.and_eq_true, decide_eq_true_eq, List.all_eq_true] at h
  obtain ⟨hlen, hall⟩ := h
  by_cases h1 : s.head? = some ':'
  · rw [if_pos h1] at hlen hall
    have hs : s = ':' :: s.tail := by
      cases s with
      | nil => simp at h1
      | cons a s' =>
        rw [List.head?_cons, Option.some.injEq] at h1
        rw [h1, List.tail_cons]
    by_cases h2 : s.tail.getLast? = some ':'
    · rw [if_pos h2] at hlen hall
      have htl : s.tail = s.tail.dropLast ++ [':'] :=
        (List.dropLast_append_getLast? ':' h2).symm
      have hrep : s.tail.dropLast = List.replicate s.tail.dropLast.length '-' :=
        List.eq_replicate_iff.mpr ⟨rfl, fun b hb => by simpa using hall b hb⟩
      refine ⟨s.tail.dropLast.length, hlen, Or.inr (Or.inr (Or.inr ?_))⟩
      rw [← hrep, ← htl, ← hs]
    · rw [if_neg h2] at hlen hall
      have hrep : s.tail = List.replicate s.tail.length '-' :=
        List.eq_replicate_iff.mpr ⟨rfl, fun b hb => by simpa using hall b hb⟩
      refine ⟨s.tail.length, hlen, Or.inr (Or.inl ?_)⟩
      rw [← hrep, ← hs]
  · rw [if_neg h1] at hlen hall
    by_cases h2 : s.getLast? = some ':'
    · rw [if_pos h2] at hlen hall
      have hs : s = s.dropLast ++ [':'] :=
        (List.dropLast_append_getLast? ':' h2).symm
      have hrep : s.dropLast = List.replicate s.dropLast.length '-' :=
        List.eq_replicate_iff.mpr ⟨rfl, fun b hb => by simpa using hall b hb⟩
      refine ⟨s.dropLast.length, hlen, Or.inr (Or.inr (Or.inl ?_))⟩
      rw [← hrep, ← hs]
    · rw [if_neg h2] at hlen hall
      have hrep : s = List.replicate s.length '-' :=
        List.eq_replicate_iff.mpr ⟨rfl, fun b hb => by simpa using hall b hb⟩
      exact ⟨s.length, hlen, Or.inl (by rw [← hrep])⟩

theorem sepCellOk_chars {s : Str} (h : sepCellOk s = true) :
    ∀ c ∈ s, c = ':' ∨ c = '-' := by
  obtain ⟨k, -, hs⟩ := sepCellOk_shape_of h
  intro c hc
  rcases hs with rfl | rfl | rfl | rfl
  · exact Or.inr (List.mem_replicate.mp hc).2
  · rcases List.mem_cons.mp hc with h0 | h0
    · exact Or.inl h0
    · exact Or.inr (List.mem_replicate.mp h0).2
  · rcases List.mem_append.mp hc with h0 | h0
    · exact Or.inr (List.mem_replicate.mp h0).2
    · simp only [List.mem_singleton] at h0
      exact Or.inl h0
  · rcases List.mem_cons.mp hc with h0 | h0
    · exact Or.inl h0
    · rcases List.mem_append.mp h0 with h1 | h1
      · exact Or.inr (List.mem_replicate.mp h1).2
      · simp only [List.mem_singleton] at h1
        exact Or.inl h1

open MarkdownTable in
/-- A rectangular table with a full alignment list is its own normalisation. -/
theorem normalize_eq_self {t : MarkdownTable}
    (hrect : ∀ r ∈ t.rows, r.length = t.header.length)
    (hal : t.aligns.length = t.header.length) :
    normalize t = t := by
  obtain ⟨h, a, r⟩ := t
  unfold normalize
  simp only [MarkdownTable.mk.injEq, true_and]
  refine ⟨?_, ?_⟩
  · show (List.range h.length).map (alignAt ⟨h, a, r⟩) = a
    unfold alignAt
    simp only [] at hal ⊢
    rw [← hal]
    exact map_getD_range a Align.left
  · have hcr : ∀ r' ∈ r, canonRow h.length r' = r' := by
      intro r' hr'
      unfold canonRow
      have := hrect r' hr'
      simp only [] at this
      rw [← this]
      exact map_getD_range r' []
    rw [List.map_congr_left hcr]
    exact List.map_id r

/-! ## The claims -/

open MarkdownTable

/-- **C1** (counterexample to the frozen claim): `narrowTable` has the
non-empty header `[""]`, but its only column renders with width 0, so the
rendered separator cell `:-` has a single dash and fails the separator
pattern: `find_tables` on its rendering returns no region at all, not
exactly one. -/
theorem c1_cex :
    narrowTable.header ≠ [] ∧ find_tables narrowTable.to_markdown = [] := by
  refine ⟨by decide, ?_⟩
  have hL : pySplitlines narrowTable.to_markdown = ["|  |".data, "|:-|".data] := by decide
  have h0 : parse_pipe_table ["|  |".data, "|:-|".data] 0 = (none, 0) := by decide
  have h1 : parse_pipe_table ["|  |".data, "|:-|".data] 1 = (none, 1) := by decide
  unfold find_tables
  rw [hL, find_tables_go_none (by decide) h0, find_tables_go_none (by decide) h1,
    find_tables_go_stop (by decide)]

/-- **C1** (amended): for a table with non-empty header whose header and row
cells are stripped, pipe-free and line-break-free, whose columns render at
least one dash wide (two for centered columns), whose rows all have exactly
one cell per header column, and whose alignment list has one tag per column,
`find_tables (to_markdown T)` returns exactly one region: lines `[0, 2+|rows|)`
carrying `T` itself — same header, same row cells, same alignment tags. -/
theorem c1_find_tables_round_trip (t : MarkdownTable) (hg : goodTable t)
    (hrect : ∀ r ∈ t.rows, r.length = t.header.length)
    (hal : t.aligns.length = t.header.length) :
    find_tables t.to_markdown = [(0, 2 + t.rows.length, t)] := by
  have hp := parse_to_markdown t hg
  rw [normalize_eq_self hrect hal] at hp
  have hlen : (pySplitlines t.to_markdown).length = 2 + t.rows.length := by
    rw [pySplitlines_to_markdown hg]
    simp
    omega
  unfold find_tables
  rw [find_tables_go_some (by rw [hlen]; omega) hp, find_tables_go_stop (by rw [hlen]; omega)]

/-- Witness for C1: the spec's concrete table satisfies every hypothesis and
round-trips as the unique region `(0, 4)`. -/
theorem c1_find_tables_round_trip_witness :
    goodTable exTable ∧ (∀ r ∈ exTable.rows, r.length = exTable.header.length) ∧
      exTable.aligns.length = exTable.header.length ∧
      find_tables exTable.to_markdown = [(0, 4, exTable)] :=
  ⟨by decide, by decide, by decide,
    c1_find_tables_round_trip exTable (by decide) (by decide) (by decide)⟩

/-- **C2** (amended): the four-line input of the spec's concrete scenario
parses at index 0 to header `["Col A","Col B"]`, aligns `[left, right]` and
rows `[["one","1"],["two","2"]]`, consuming all four lines; `to_markdown` on
that value produces the canonical width-padded text shown — which is *not*
byte-identical to the input (see the counterexample). -/
theorem c2_concrete_scenario :
    parse_pipe_table exLines 0 = (some exTable, 4) ∧
    exTable.to_markdown
      = "| Col A | Col B |\n|:------|------:|\n| one   | 1     |\n| two   | 2     |".data :=
  ⟨by decide, by decide⟩

/-- **C2** (counterexample to the frozen claim): `to_markdown` of the parsed
table is not byte-identical to the four-line input (the input's separator
`| :--- | ---: |` and unpadded data rows differ from the canonical output). -/
theorem c2_cex :
    exTable.to_markdown ≠ List.intercalate ['\n'] exLines := by decide

/-- **C3** (counterexample to the frozen claim): for `narrowTable` (header
`[""]`), re-parsing `to_markdown` fails outright — `parse_pipe_table` returns
`none` — so no parse-render cycle can reproduce the output. -/
theorem c3_cex :
    parse_pipe_table (pySplitlines narrowTable.to_markdown) 0 = (none, 0) := by decide

/-- **C3** (amended): for a table with non-empty header, good cells and wide
enough columns (as in C1, but rows may be ragged and the alignment list any
length), one render-parse cycle yields a table `t₁` whose rendering is
byte-identical to `to_markdown t`, and `t₁` re-parses to itself — so every
further cycle reproduces the same output. -/
theorem c3_render_parse_idempotent (t : MarkdownTable) (hg : goodTable t) :
    ∃ t₁, parse_pipe_table (pySplitlines t.to_markdown) 0 = (some t₁, 2 + t.rows.length) ∧
      t₁.to_markdown = t.to_markdown ∧
      parse_pipe_table (pySplitlines t₁.to_markdown) 0 = (some t₁, 2 + t₁.rows.length) := by
  refine ⟨normalize t, parse_to_markdown t hg, to_markdown_normalize t, ?_⟩
  have h2 := parse_to_markdown (normalize t) (goodTable_normalize hg)
  rw [normalize_normalize] at h2
  exact h2

/-- Witness for C3 at the spec's concrete table. -/
theorem c3_render_parse_idempotent_witness :
    goodTable exTable ∧
    ∃ t₁, parse_pipe_table (pySplitlines exTable.to_markdown) 0
        = (some t₁, 2 + exTable.rows.length) ∧
      t₁.to_markdown = exTable.to_markdown ∧
      parse_pipe_table (pySplitlines t₁.to_markdown) 0 = (some t₁, 2 + t₁.rows.length) :=
  ⟨by decide, c3_render_parse_idempotent exTable (by decide)⟩

/-- **C4**: `parse_pipe_table` returns `(none, start)` — index unchanged —
exactly when the collected run at `start` has fewer than two lines or some
cell of the second collected line fails the separator pattern; and whenever
the parse fails the index is unchanged. -/
theorem c4_parse_failure (lines : List Str) (start : Nat) :
    (parse_pipe_table lines start = (none, start) ↔
      ((collectRun (lines.drop start)).length < 2 ∨
        ∃ seg ∈ split_row ((collectRun (lines.drop start)).getD 1 []),
          sepCellOk seg = false)) ∧
    ((parse_pipe_table lines start).1 = none → parse_pipe_table lines start = (none, start)) :=
  ⟨parse_none_iff lines start, parse_fst_none⟩

/-- Witness for C4: the spec's separator-validation scenario — a second line
`| --- | abc |` makes the whole parse fail with the index unchanged. -/
theorem c4_parse_failure_witness :
    parse_pipe_table ["| a | b |".data, "| --- | abc |".data] 0 = (none, 0) :=
  (c4_parse_failure ["| a | b |".data, "| --- | abc |".data] 0).1.mpr (Or.inr (by decide))

/-- **C5** (counterexample to the frozen claim): a quoted field containing a
line break is *not* preserved: `"a\nb",c` parses to cell `ab` — the break
character is consumed by the line pre-split and dropped. -/
theorem c5_cex :
    parse_delimited "\"a\nb\",c".data ',' = [["ab".data, "c".data]] ∧
      ("ab".data : Str) ≠ "a\nb".data :=
  ⟨by decide, by decide⟩

/-- **C5** (amended): a quoted field may contain the delimiter, which is
preserved verbatim in the returned cell; a quoted field spanning a line break
is parsed as one cell, but the break character itself is dropped (the two
halves are concatenated). -/
theorem c5_quoted_fields (d : Char) (s u : Str)
    (hqs : ∀ c ∈ s, ¬(c = '"')) (hbs : ∀ c ∈ s, isLineBreak c = false)
    (hqu : ∀ c ∈ u, ¬(c = '"')) (hbu : ∀ c ∈ u, isLineBreak c = false) :
    parse_delimited ('"' :: (s ++ ['"'])) d = [[s]] ∧
    parse_delimited ('"' :: (s ++ '\n' :: (u ++ ['"']))) d = [[s ++ u]] :=
  ⟨parse_delimited_quoted d hqs hbs, parse_delimited_quoted_nl d hqs hbs hqu hbu⟩

/-- Witness for C5: a quoted cell containing the comma delimiter is preserved;
a quoted cell spanning a newline is joined without the newline. -/
theorem c5_quoted_fields_witness :
    parse_delimited ('"' :: ("x,y".data ++ ['"'])) ',' = [["x,y".data]] ∧
    parse_delimited ('"' :: ("x".data ++ '\n' :: ("y".data ++ ['"']))) ','
      = [["x".data ++ "y".data]] :=
  ⟨(c5_quoted_fields ',' "x,y".data "y".data (by decide) (by decide) (by decide) (by decide)).1,
    (c5_quoted_fields ',' "x".data "y".data (by decide) (by decide) (by decide) (by decide)).2⟩

/-- **C6**: on every cell accepted by the separator pattern, the derived
alignment is center for colons on both sides, right for a trailing colon
only, and left otherwise; in particular `:---:` is center, `---:` right,
`:---` and `---` left. -/
theorem c6_alignment_mapping :
    (∀ s : Str, sepCellOk s = true →
      align_of s =
        if s.head? = some ':' ∧ s.getLast? = some ':' then Align.center
        else if s.getLast? = some ':' then Align.right
        else Align.left) ∧
    align_of ":---:".data = Align.center ∧ align_of "---:".data = Align.right ∧
    align_of ":---".data = Align.left ∧ align_of "---".data = Align.left := by
  refine ⟨?_, by decide, by decide, by decide, by decide⟩
  intro s h
  have hstrip : pyStrip s = s := pyStrip_colon_dash (sepCellOk_chars h)
  unfold align_of
  simp only []
  rw [hstrip]

/-- Witness for C6 at a concrete accepted separator cell. -/
theorem c6_alignment_mapping_witness :
    sepCellOk ":--:".data = true ∧ align_of ":--:".data = Align.center := by
  refine ⟨by decide, ?_⟩
  rw [(c6_alignment_mapping).1 (":--:".data) (by decide)]
  decide

/-- **C7**: the CSV cell encoder quotes (wrapping in `"` and doubling internal
`"`) exactly when the cell contains a comma, a double quote, `\n` or `\r`,
and otherwise emits the cell verbatim; the spec's concrete cell encodes as
stated. -/
theorem c7_csv_quoting :
    (∀ s : Str, s.any (fun c => c = ',' || c = '"' || c = '\n' || c = '\r') = true →
      escape_csv s =
        '"' :: (((s.map (fun c => if c = '"' then ['"', '"'] else [c])).flatten) ++ ['"'])) ∧
    (∀ s : Str, s.any (fun c => c = ',' || c = '"' || c = '\n' || c = '\r') = false →
      escape_csv s = s) ∧
    escape_csv "He said \"hi\", ok".data = "\"He said \"\"hi\"\", ok\"".data := by
  refine ⟨?_, ?_, by decide⟩
  · intro s h
    unfold escape_csv
    rw [if_pos h]
  · intro s h
    unfold escape_csv
    rw [if_neg (by simp [h])]

/-- Witness for C7: a cell with no special character is emitted verbatim. -/
theorem c7_csv_quoting_witness :
    escape_csv "plain".data = "plain".data :=
  (c7_csv_quoting).2.1 ("plain".data) (by decide)

/-- **C8**: pasting sniffs the delimiter — the comma parse is kept unless it
yields at most one row, in which case the tab parse is used; and the first
parsed row is skipped exactly when, stripped and lowercased, it equals the
current header labels. The spec's two concrete header-skip scenarios hold. -/
theorem c8_paste_sniffing :
    (∀ text : Str,
      ((parse_delimited text ',').length ≤ 1 → sniff_rows text = parse_delimited text '\t') ∧
      (1 < (parse_delimited text ',').length → sniff_rows text = parse_delimited text ',')) ∧
    (∀ (rows : List (List Str)) (headers : List Str), rows ≠ [] →
      (paste_start_idx rows headers = 1 ↔
        header_matches (rows.headD []) headers = true)) ∧
    paste_inserted [["col a".data, "COL B".data], ["one".data, "1".data]] hdrsAB
      = [["one".data, "1".data]] ∧
    paste_inserted [["x".data, "1".data]] hdrsAB = [["x".data, "1".data]] := by
  refine ⟨?_, ?_, by decide, by decide⟩
  · intro text
    constructor
    · intro h
      unfold sniff_rows
      simp only []
      rw [if_pos h]
    · intro h
      unfold sniff_rows
      simp only []
      rw [if_neg (by omega)]
  · intro rows headers hne
    unfold paste_start_idx
    by_cases hm : header_matches (rows.headD []) headers = true
    · rw [if_pos ⟨hne, hm⟩]
      exact iff_of_true rfl hm
    · rw [if_neg (by rintro ⟨-, h0⟩; exact hm h0)]
      exact iff_of_false (by omega) hm

/-- Witness for C8: a single tab-separated line makes the comma parse yield
one row, so the tab parse is used. -/
theorem c8_paste_sniffing_witness :
    sniff_rows "a\tb".data = parse_delimited "a\tb".data '\t' :=
  ((c8_paste_sniffing).1 ("a\tb".data)).1 (by decide)

/-- **C9**: the regions of `find_tables` are pairwise disjoint (every earlier
region's exclusive end is at most every later region's start), each spans at
least two lines, and their starts strictly increase; the concrete two-table
document yields exactly the two regions `(0,2)` and `(3,5)`. -/
theorem c9_non_overlap :
    (∀ text : Str,
      List.Pairwise (fun a b : Nat × Nat × MarkdownTable => a.2.1 ≤ b.1) (find_tables text) ∧
      (∀ r ∈ find_tables text, r.1 + 2 ≤ r.2.1) ∧
      List.Pairwise (fun a b : Nat × Nat × MarkdownTable => a.1 < b.1) (find_tables text)) ∧
    find_tables twoTablesText = [(0, 2, tableA), (3, 5, tableB)] := by
  constructor
  · intro text
    obtain ⟨hmem, hpair⟩ := find_tables_spec text
    refine ⟨hpair, fun r hr => (hmem r hr).1.1, ?_⟩
    refine hpair.imp_of_mem ?_
    intro a b ha hb hab
    have := (hmem a ha).1.1
    omega
  · have hL : pySplitlines twoTablesText
        = ["| a |".data, "| --- |".data, [], "| b |".data, "| --- |".data] := by decide
    have h0 : parse_pipe_table
        ["| a |".data, "| --- |".data, [], "| b |".data, "| --- |".data] 0
        = (some tableA, 2) := by decide
    have h2 : parse_pipe_table
        ["| a |".data, "| --- |".data, [], "| b |".data, "| --- |".data] 2
        = (none, 2) := by decide
    have h3 : parse_pipe_table
        ["| a |".data, "| --- |".data, [], "| b |".data, "| --- |".data] 3
        = (some tableB, 5) := by decide
    unfold find_tables
    rw [hL, find_tables_go_some (by decide) h0, find_tables_go_none (by decide) h2,
      find_tables_go_some (by decide) h3, find_tables_go_stop (by decide)]

/-- Witness for C9: the first region of the two-table document spans at least
two lines. -/
theorem c9_non_overlap_witness :
    ((0, 2, tableA) : Nat × Nat × MarkdownTable).1 + 2 ≤ (0, 2, tableA).2.1 :=
  ((c9_non_overlap).1 twoTablesText).2.1 (0, 2, tableA)
    (by rw [(c9_non_overlap).2]; exact List.mem_cons_self _ _)

/-- **C10**: every table parsed from a text's lines — directly through
`parse_pipe_table` or through `find_tables` — has header and row cells with
no leading or trailing whitespace, no `|` and no newline; and every region of
`find_tables` spans at least two lines. -/
theorem c10_cell_invariants :
    (∀ (text : Str) (start j : Nat) (t : MarkdownTable),
      parse_pipe_table (pySplitlines text) start = (some t, j) →
      (∀ c ∈ t.header, pyStrip c = c ∧ '|' ∉ c ∧ '\n' ∉ c) ∧
      (∀ r ∈ t.rows, ∀ c ∈ r, pyStrip c = c ∧ '|' ∉ c ∧ '\n' ∉ c)) ∧
    (∀ text : Str, ∀ r ∈ find_tables text,
      ((∀ c ∈ r.2.2.header, pyStrip c = c ∧ '|' ∉ c ∧ '\n' ∉ c) ∧
        (∀ row ∈ r.2.2.rows, ∀ c ∈ row, pyStrip c = c ∧ '|' ∉ c ∧ '\n' ∉ c)) ∧
      r.1 + 2 ≤ r.2.1) := by
  have hmain : ∀ (text : Str) (start j : Nat) (t : MarkdownTable),
      parse_pipe_table (pySplitlines text) start = (some t, j) →
      (∀ c ∈ t.header, pyStrip c = c ∧ '|' ∉ c ∧ '\n' ∉ c) ∧
      (∀ r ∈ t.rows, ∀ c ∈ r, pyStrip c = c ∧ '|' ∉ c ∧ '\n' ∉ c) :=
    fun text start j t hp => parse_cells (fun l hl => pySplitlines_no_break l hl) hp
  refine ⟨hmain, ?_⟩
  intro text r hr
  obtain ⟨hmem, -⟩ := find_tables_spec text
  obtain ⟨⟨hb, -⟩, hp⟩ := hmem r hr
  exact ⟨hmain text r.1 r.2.1 r.2.2 hp, hb⟩

/-- Witness for C10: the header cell of the table parsed from a concrete
document is stripped, pipe-free and newline-free. -/
theorem c10_cell_invariants_witness :
    pyStrip ['a'] = ['a'] ∧ '|' ∉ ['a'] ∧ '\n' ∉ (['a'] : Str) :=
  ((c10_cell_invariants).1 "| a |\n| --- |".data 0 2 tableA (by decide)).1 ['a']
    (List.mem_cons_self _ _)

end MdCSV
